import Mathlib

/-!
A verification development for the sprint planning simulator.

This file gives a shallow embedding, in Lean 4, of the scheduling and
eligibility engine of the sprint planning simulator (`src/feature.py`,
`src/employee.py`, `src/strategy.py`, `src/validator.py`, `src/simulator.py`,
`src/history.py`, `src/config.py`), and proves the behavioural properties
stated in the specification against it.

Modelling conventions:
* Python floats are modelled as exact rationals (`ℚ`).  Python's `round(x, 2)`
  (round-half-to-even at two decimal places) is modelled by `round2`, using a
  directly executable floor on `ℚ` (`floorQ`, via `Int.fdiv`).
* Python dictionaries keyed by stages are modelled as insertion-ordered
  association lists `List (FeatureStage × ℚ)`; Python sets of names are
  modelled as lists of strings with membership as the only observation.
* Mutation is modelled by explicit state passing: methods that mutate a
  `Feature` become functions `Feature → ... → Feature`, and the simulator's
  tick loop becomes structural recursion over a `SimState`.
* Python exceptions become `Except` values (`ValidationError` for the
  validator, a `String` error for the `Feature` constructor).
-/

namespace SprintSim

/-- Two-decimal rounding with round-half-to-even ties, mirroring Python's
`round(x, 2)` on exact values. `floorQ` is an executable floor on `ℚ`. -/
def floorQ (q : ℚ) : ℤ := q.num.fdiv q.den

def roundHalfEven (x : ℚ) : ℤ :=
  if x - floorQ x < 1/2 then floorQ x
  else if 1/2 < x - floorQ x then floorQ x + 1
  else if floorQ x % 2 = 0 then floorQ x else floorQ x + 1

def round2 (x : ℚ) : ℚ := (roundHalfEven (x * 100) : ℚ) / 100

/-- `src/config.py`: `HOURS_PER_DAY = 8`. -/
def HOURS_PER_DAY : ℕ := 8

/-- `src/config.py`: `REVIEW_COEFFICIENT = 0.2`. -/
def REVIEW_COEFFICIENT : ℚ := 1/5

/-- `src/feature.py`: `FeatureStage` enumeration. -/
inductive FeatureStage where
  | ANALYTICS
  | DEVELOPMENT
  | CODE_REVIEW
  | TESTING
deriving DecidableEq, Fintype

/-- `src/feature.py`: `Feature.STAGE_ORDER`. -/
def STAGE_ORDER : List FeatureStage :=
  [.ANALYTICS, .DEVELOPMENT, .CODE_REVIEW, .TESTING]

/-- Index of a stage in `STAGE_ORDER` (the value of `STAGE_ORDER.index(s)`). -/
def stageIdx : FeatureStage → ℕ
  | .ANALYTICS => 0
  | .DEVELOPMENT => 1
  | .CODE_REVIEW => 2
  | .TESTING => 3

/-- Roles of `src/employee.py`: the base class and its three subclasses. -/
inductive Role where
  | Base
  | Developer
  | SystemAnalyst
  | QA
deriving DecidableEq

/-- `src/employee.py`: the class-level `effective_stages` lists. -/
def Role.effective_stages : Role → List FeatureStage
  | .Base => []
  | .Developer => [.DEVELOPMENT, .CODE_REVIEW]
  | .SystemAnalyst => [.ANALYTICS]
  | .QA => [.TESTING]

/-- `src/employee.py`: `Employee` (per-tick transient display state omitted;
it feeds only the history snapshots, never a decision). -/
structure Employee where
  name : String
  role : Role
  productivity_per_day : ℚ
deriving DecidableEq

/-- `src/employee.py`: `Employee.can_work_stage`. -/
def Employee.can_work_stage (e : Employee) (stage : FeatureStage) : Bool :=
  stage ∈ e.role.effective_stages

/-- `src/employee.py`: `Employee.productivity_per_hour`. -/
def Employee.productivity_per_hour (e : Employee) : ℚ :=
  e.productivity_per_day / HOURS_PER_DAY

/-- Dictionary lookup on a stage-keyed association list. -/
def lookupStage (m : List (FeatureStage × ℚ)) (s : FeatureStage) : Option ℚ :=
  (m.find? (fun p => p.1 = s)).map (fun p => p.2)

/-- Dictionary key-membership test (`s in m` in Python). -/
def hasStage (m : List (FeatureStage × ℚ)) (s : FeatureStage) : Bool :=
  m.any (fun p => p.1 = s)

/-- Dictionary assignment `m[s] = v`: overwrite in place, or append a new
key in insertion order (Python dict semantics). -/
def setStage (m : List (FeatureStage × ℚ)) (s : FeatureStage) (v : ℚ) :
    List (FeatureStage × ℚ) :=
  if hasStage m s then m.map (fun p => if p.1 = s then (s, v) else p)
  else m ++ [(s, v)]

/-- `src/feature.py`: the `Feature` state. -/
structure Feature where
  name : String
  review_coefficient : ℚ
  stage_capacities : List (FeatureStage × ℚ)
  remaining : List (FeatureStage × ℚ)
  current_stage : FeatureStage
  assignees : List Employee
  development_contributors : List String
deriving DecidableEq

/-- `src/feature.py`: `Feature._calculate_stage_capacities`: auto-add
`CODE_REVIEW` (rounded fraction of `DEVELOPMENT`) unless explicitly given. -/
def calculate_stage_capacities (coeff : ℚ)
    (stage_capacities : List (FeatureStage × ℚ)) : List (FeatureStage × ℚ) :=
  match lookupStage stage_capacities .DEVELOPMENT with
  | none => stage_capacities
  | some dev_effort =>
    if hasStage stage_capacities .CODE_REVIEW then stage_capacities
    else stage_capacities ++ [(.CODE_REVIEW, round2 (dev_effort * coeff))]

/-- `src/feature.py`: `Feature.__init__`.  The `review_coefficient or
REVIEW_COEFFICIENT` merge treats both `None` and `0.0` (Python falsy) as
absent; the `ValueError` for an initial stage outside the capacities becomes
an `Except.error`. -/
def mkFeature (name : String) (stage_capacities : List (FeatureStage × ℚ))
    (initial_stage : FeatureStage) (review_coefficient : Option ℚ) :
    Except String Feature :=
  let coeff :=
    match review_coefficient with
    | none => REVIEW_COEFFICIENT
    | some c => if c = 0 then REVIEW_COEFFICIENT else c
  let caps := calculate_stage_capacities coeff stage_capacities
  if hasStage caps initial_stage then
    .ok { name := name
          review_coefficient := coeff
          stage_capacities := caps
          remaining := caps
          current_stage := initial_stage
          assignees := []
          development_contributors := [] }
  else .error "Initial stage must be in stage_capacities"

/-- `src/feature.py`: `Feature.is_done` (all remaining values `≤ 0`). -/
def Feature.is_done (f : Feature) : Bool :=
  f.remaining.all (fun p => p.2 ≤ 0)

/-- `src/feature.py`: `Feature.has_code_review`. -/
def Feature.has_code_review (f : Feature) : Bool :=
  match lookupStage f.stage_capacities .CODE_REVIEW with
  | some v => 0 < v
  | none => false

/-- `src/feature.py`: `Feature.assign` (idempotent append). -/
def Feature.assign (f : Feature) (e : Employee) : Feature :=
  if e ∈ f.assignees then f
  else { f with assignees := f.assignees ++ [e] }

/-- `src/feature.py`: `Feature.register_development_contributor`. -/
def Feature.register_development_contributor (f : Feature) (e : Employee) :
    Feature :=
  if e.name ∈ f.development_contributors then f
  else { f with
         development_contributors := f.development_contributors ++ [e.name] }

/-- `src/feature.py`: `Feature.can_be_worked_by`. -/
def Feature.can_be_worked_by (f : Feature) (e : Employee) : Bool :=
  if f.is_done then false
  else if ¬ e.can_work_stage f.current_stage then false
  else if f.current_stage = .CODE_REVIEW then
    ¬ (e.name ∈ f.development_contributors)
  else e ∈ f.assignees

/-- `src/feature.py`: `Feature.work`: clamped, rounded subtraction applied to
the current stage's remaining effort. -/
def Feature.work (f : Feature) (effort : ℚ) : Feature :=
  let prev := (lookupStage f.remaining f.current_stage).getD 0
  { f with remaining :=
      setStage f.remaining f.current_stage (max 0 (round2 (prev - effort))) }

/-- `src/feature.py`: `Feature.try_advance`: returns the `fully done` flag
together with the (possibly stage-advanced) feature. -/
def Feature.try_advance (f : Feature) : Bool × Feature :=
  if 0 < (lookupStage f.remaining f.current_stage).getD 0 then (false, f)
  else
    let current_index := STAGE_ORDER.findIdx (fun t => decide (t = f.current_stage))
    match (STAGE_ORDER.drop (current_index + 1)).find?
        (fun s => hasStage f.remaining s) with
    | some s => (false, { f with current_stage := s })
    | none => (true, f)

/-- `src/employee.py`: `Employee.work`: register a development contributor
when applicable, then apply one hour of productivity. -/
def Employee.work (e : Employee) (f : Feature) : Feature :=
  let f' := if f.current_stage = .DEVELOPMENT
    then f.register_development_contributor e else f
  f'.work e.productivity_per_hour

/-- `src/strategy.py`: `SimpleAssignmentStrategy.choose_feature`: first match
in list order.  It is a pure function of its two arguments (the source only
reads; it never mutates worker, features or any strategy state). -/
def choose_feature (e : Employee) : List Feature → Option Feature
  | [] => none
  | f :: rest => if f.can_be_worked_by e then some f else choose_feature e rest

/-- Exceptions of `src/exceptions.py` relevant to validation:
`PlanningError(message, feature_name)` and its refinement
`NoReviewerAvailableError(feature_name, assigned_developers,
available_developers)`. -/
inductive ValidationError where
  | planning (message : String) (feature_name : Option String)
  | noReviewer (feature_name : String) (assigned_developers : List String)
      (available_developers : List String)
deriving DecidableEq

/-- `isinstance(e, Developer)` in `src/validator.py`. -/
def is_developer (e : Employee) : Bool := e.role = Role.Developer

/-- `src/validator.py`: `SprintValidator._validate_features`: features list
non-empty, then each feature has at least one assignee (first failure wins).
-/
def validate_features (features : List Feature) : Except ValidationError Unit :=
  if features.isEmpty then
    .error (.planning "No features provided for simulation" none)
  else
    match features.find? (fun f => f.assignees.isEmpty) with
    | some f => .error (.planning "Feature has no assigned employees" (some f.name))
    | none => .ok ()

/-- `src/validator.py`: `SprintValidator._validate_employees`: employees list
non-empty, then each employee has strictly positive productivity. -/
def validate_employees (employees : List Employee) :
    Except ValidationError Unit :=
  if employees.isEmpty then
    .error (.planning "No employees provided for simulation" none)
  else
    match employees.find? (fun e => e.productivity_per_day ≤ 0) with
    | some e =>
      .error (.planning ("Employee " ++ e.name ++ " has invalid productivity") none)
    | none => .ok ()

/-- `src/validator.py`: the set comprehension of assigned Developer names in
`_validate_code_review_coverage`. -/
def assigned_dev_names (f : Feature) : List String :=
  (f.assignees.filter is_developer).map Employee.name

/-- `src/validator.py`: `SprintValidator._validate_code_review_coverage`,
with the team's Developer list already computed. -/
def validate_code_review_coverage (team_developers : List Employee) :
    List Feature → Except ValidationError Unit
  | [] => .ok ()
  | f :: rest =>
    if f.has_code_review then
      let eligible := team_developers.filter
        (fun d => ¬ (d.name ∈ assigned_dev_names f))
      if eligible.isEmpty then
        .error (.noReviewer f.name (assigned_dev_names f)
          (team_developers.map Employee.name))
      else validate_code_review_coverage team_developers rest
    else validate_code_review_coverage team_developers rest

/-- `src/validator.py`: `SprintValidator.validate`: the three checks in
source order, fail-fast. -/
def validate (features : List Feature) (employees : List Employee) :
    Except ValidationError Bool := do
  validate_features features
  validate_employees employees
  validate_code_review_coverage (employees.filter is_developer) features
  pure true

/-- Replace the element at an index (the in-place mutation of the Python
object held at that list position). -/
def updateAt {α : Type} (g : α → α) : List α → ℕ → List α
  | [], _ => []
  | x :: rest, 0 => g x :: rest
  | x :: rest, n + 1 => x :: updateAt g rest n

/-- `src/simulator.py`: the assignment-and-work pass of `_process_tick`:
each employee, in supplied order, works the first feature it may work
(mutating it in place) or idles. -/
def assign_work : List Employee → List Feature → List Feature
  | [], fs => fs
  | e :: rest, fs =>
    match fs.findIdx? (fun f => f.can_be_worked_by e) with
    | some i => assign_work rest (updateAt e.work fs i)
    | none => assign_work rest fs

/-- `src/simulator.py`: `_advance_features`: advance every feature, then
drop those that report full completion (order preserved). -/
def advance_features (fs : List Feature) : List Feature :=
  fs.filterMap (fun f =>
    match f.try_advance with
    | (true, _) => none
    | (false, f') => some f')

/-- Simulation state: the active features and the recorded history
(`src/history.py` stores one snapshot per processed tick; we keep the
feature part of each snapshot, which is all later claims observe). -/
structure SimState where
  features : List Feature
  history : List (List Feature)
deriving DecidableEq

/-- `src/simulator.py`: `_process_tick`: work, record a snapshot of the
post-work features, then advance stages and drop completed features. -/
def process_tick (employees : List Employee) (st : SimState) : SimState :=
  let fs := assign_work employees st.features
  { features := advance_features fs
    history := st.history ++ [fs] }

/-- `src/simulator.py`: the doubly-nested tick loop of `run`, as structural
recursion over the number of ticks left; the loop returns as soon as the
active feature list is empty after a processed tick. -/
def run_ticks (employees : List Employee) : ℕ → SimState → SimState
  | 0, st => st
  | n + 1, st =>
    let st' := process_tick employees st
    if st'.features.isEmpty then st' else run_ticks employees n st'

/-- `src/simulator.py`: `run(max_days)` processes at most
`max_days * HOURS_PER_DAY` ticks starting from an empty history. -/
def run (employees : List Employee) (features : List Feature)
    (max_days : ℕ) : SimState :=
  run_ticks employees (max_days * HOURS_PER_DAY)
    { features := features, history := [] }

/-- Plain iteration of `process_tick` (no early exit): the state of the
simulation after `n` processed ticks, used to talk about the trajectory. -/
def tick_iter (employees : List Employee) : ℕ → SimState → SimState
  | 0, st => st
  | n + 1, st => tick_iter employees n (process_tick employees st)

/-- Iterated `try_advance`, keeping only the feature (the caller is the one
that reacts to the done flag). -/
def advance_iter (f : Feature) : ℕ → Feature
  | 0 => f
  | n + 1 => (advance_iter f n).try_advance.2

/-- Executable form of the invariant `remaining[stage] ≥ 0`. -/
def nonnegRemaining (f : Feature) : Bool :=
  f.remaining.all (fun p => 0 ≤ p.2)

-- Equality of validator outcomes is decidable, so concrete configurations
-- can be evaluated.
deriving instance DecidableEq for Except

/-- Concrete Developer with daily productivity 8 (1.0 effort per tick). -/
def alice : Employee :=
  { name := "Alice", role := .Developer, productivity_per_day := 8 }

/-- Concrete external reviewer: a second Developer, assigned to nothing. -/
def bob : Employee :=
  { name := "Bob", role := .Developer, productivity_per_day := 8 }

/-- The feature of the specification's example scenario, as built by
`mkFeature "Feature" [(DEVELOPMENT, 10)] DEVELOPMENT none`. -/
def scenBase : Feature :=
  { name := "Feature"
    review_coefficient := 1/5
    stage_capacities := [(.DEVELOPMENT, 10), (.CODE_REVIEW, 2)]
    remaining := [(.DEVELOPMENT, 10), (.CODE_REVIEW, 2)]
    current_stage := .DEVELOPMENT
    assignees := []
    development_contributors := [] }

/-- The scenario feature with its one assigned Developer. -/
def scenF : Feature := scenBase.assign alice

/-- The scenario team: the assigned Developer and the external reviewer. -/
def scenTeam : List Employee := [alice, bob]

/-- Initial simulation state of the example scenario. -/
def scenInit : SimState := { features := [scenF], history := [] }

/-- A feature sitting in its Review stage whose development was contributed
by Alice (used to instantiate eligibility statements). -/
def reviewF : Feature :=
  { name := "R"
    review_coefficient := 1/5
    stage_capacities := [(.DEVELOPMENT, 10), (.CODE_REVIEW, 2)]
    remaining := [(.DEVELOPMENT, 0), (.CODE_REVIEW, 2)]
    current_stage := .CODE_REVIEW
    assignees := [alice]
    development_contributors := ["Alice"] }

/-- The feature built by `mkFeature "T" [(TESTING, 4)] TESTING none`
(no Development capacity, hence no derived Review stage). -/
def testF : Feature :=
  { name := "T"
    review_coefficient := 1/5
    stage_capacities := [(.TESTING, 4)]
    remaining := [(.TESTING, 4)]
    current_stage := .TESTING
    assignees := []
    development_contributors := [] }

/-- The feature built by `mkFeature "Z" [(DEVELOPMENT, 10)] DEVELOPMENT
(some 0)`: the zero coefficient is replaced by the default. -/
def zeroF : Feature :=
  { name := "Z"
    review_coefficient := 1/5
    stage_capacities := [(.DEVELOPMENT, 10), (.CODE_REVIEW, 2)]
    remaining := [(.DEVELOPMENT, 10), (.CODE_REVIEW, 2)]
    current_stage := .DEVELOPMENT
    assignees := []
    development_contributors := [] }

/-- A feature with no assignees (used to instantiate validator statements).
-/
def orphanF : Feature :=
  { name := "Orphan"
    review_coefficient := 1/5
    stage_capacities := [(.ANALYTICS, 1)]
    remaining := [(.ANALYTICS, 1)]
    current_stage := .ANALYTICS
    assignees := []
    development_contributors := [] }

end SprintSim

namespace SprintSim

theorem floorQ_eq_floor (q : ℚ) : floorQ q = ⌊q⌋ := by
  rw [Rat.floor_def, floorQ, Int.fdiv_eq_ediv _ (by positivity : (0:ℤ) ≤ q.den)]

theorem floorQ_le (q : ℚ) : (floorQ q : ℚ) ≤ q := by
  rw [floorQ_eq_floor]; exact Int.floor_le q

theorem roundHalfEven_nonneg {x : ℚ} (h : 0 ≤ x) : 0 ≤ roundHalfEven x := by
  have hf : (0:ℤ) ≤ floorQ x := by
    rw [floorQ_eq_floor]; exact Int.floor_nonneg.mpr h
  unfold roundHalfEven
  by_cases h1 : x - (floorQ x : ℚ) < 1/2
  · rw [if_pos h1]; exact hf
  · rw [if_neg h1]
    by_cases h2 : (1:ℚ)/2 < x - (floorQ x : ℚ)
    · rw [if_pos h2]; omega
    · rw [if_neg h2]
      by_cases h3 : floorQ x % 2 = 0
      · rw [if_pos h3]; exact hf
      · rw [if_neg h3]; omega

theorem roundHalfEven_nonpos {x : ℚ} (h : x ≤ 0) : roundHalfEven x ≤ 0 := by
  have hf : floorQ x ≤ 0 := by
    rw [floorQ_eq_floor]; exact Int.floor_nonpos h
  have hle := floorQ_le x
  unfold roundHalfEven
  by_cases h1 : x - (floorQ x : ℚ) < 1/2
  · rw [if_pos h1]; exact hf
  · rw [if_neg h1]
    by_cases h2 : (1:ℚ)/2 < x - (floorQ x : ℚ)
    · rw [if_pos h2]
      have hq : (floorQ x : ℚ) < 0 := by linarith
      have : floorQ x < 0 := by exact_mod_cast hq
      omega
    · rw [if_neg h2]
      have heq : x - (floorQ x : ℚ) = 1/2 := le_antisymm (not_lt.mp h2) (not_lt.mp h1)
      have hq : (floorQ x : ℚ) < 0 := by linarith
      have hneg : floorQ x < 0 := by exact_mod_cast hq
      by_cases h3 : floorQ x % 2 = 0
      · rw [if_pos h3]; exact hf
      · rw [if_neg h3]; omega

theorem round2_nonneg {x : ℚ} (h : 0 ≤ x) : 0 ≤ round2 x := by
  unfold round2
  have hz : (0:ℤ) ≤ roundHalfEven (x * 100) := roundHalfEven_nonneg (by positivity)
  have hq : (0:ℚ) ≤ (roundHalfEven (x * 100) : ℚ) := by exact_mod_cast hz
  positivity

theorem round2_nonpos {x : ℚ} (h : x ≤ 0) : round2 x ≤ 0 := by
  unfold round2
  have h1 : roundHalfEven (x * 100) ≤ 0 := roundHalfEven_nonpos (by nlinarith)
  have h2 : ((roundHalfEven (x * 100) : ℚ)) ≤ 0 := by exact_mod_cast h1
  linarith

theorem max_round2_eq_zero {x : ℚ} (h : x ≤ 0) : max 0 (round2 x) = 0 :=
  max_eq_left (round2_nonpos h)

theorem lookupStage_eq_none_iff {m : List (FeatureStage × ℚ)} {s : FeatureStage} :
    lookupStage m s = none ↔ hasStage m s = false := by
  induction m with
  | nil => simp [lookupStage, hasStage]
  | cons p rest ih =>
    by_cases hp : p.1 = s
    · simp [lookupStage, hasStage, List.find?_cons, List.any_cons, hp]
    · simp only [lookupStage, hasStage] at ih
      simpa [lookupStage, hasStage, List.find?_cons, List.any_cons, hp] using ih

theorem lookupStage_isSome_of_hasStage {m : List (FeatureStage × ℚ)}
    {s : FeatureStage} (h : hasStage m s = true) :
    ∃ v, lookupStage m s = some v := by
  rcases ho : lookupStage m s with _ | v
  · rw [lookupStage_eq_none_iff.mp ho] at h; cases h
  · exact ⟨v, rfl⟩

theorem lookupStage_append (m₁ m₂ : List (FeatureStage × ℚ)) (s : FeatureStage) :
    lookupStage (m₁ ++ m₂) s = (lookupStage m₁ s).or (lookupStage m₂ s) := by
  unfold lookupStage
  rw [List.find?_append]
  rcases hfind : List.find? (fun p => decide (p.1 = s)) m₁ with _ | p <;>
    rw [hfind] <;> simp [Option.or]

theorem lookup_map_set_self {m : List (FeatureStage × ℚ)} {s : FeatureStage}
    (v : ℚ) (h : hasStage m s = true) :
    lookupStage (m.map (fun p => if p.1 = s then (s, v) else p)) s = some v := by
  induction m with
  | nil => simp [hasStage] at h
  | cons p rest ih =>
    by_cases hp : p.1 = s
    · simp [lookupStage, List.find?_cons, hp]
    · have hr : hasStage rest s = true := by
        simpa [hasStage, List.any_cons, hp] using h
      simpa [lookupStage, List.find?_cons, hp] using ih hr

theorem lookup_map_set_ne {m : List (FeatureStage × ℚ)} {s s' : FeatureStage}
    (v : ℚ) (h : s' ≠ s) :
    lookupStage (m.map (fun p => if p.1 = s then (s, v) else p)) s'
      = lookupStage m s' := by
  induction m with
  | nil => simp [lookupStage]
  | cons p rest ih =>
    by_cases hp : p.1 = s
    · have hp' : ¬ (p.1 = s') := by rw [hp]; exact fun hc => h hc.symm
      simpa [lookupStage, List.find?_cons, hp, Ne.symm h, hp'] using ih
    · by_cases hp' : p.1 = s'
      · simp [lookupStage, List.find?_cons, hp, hp', h]
      · simpa [lookupStage, List.find?_cons, hp, hp'] using ih

theorem lookupStage_setStage_self {m : List (FeatureStage × ℚ)}
    {s : FeatureStage} (v : ℚ) (h : hasStage m s = true) :
    lookupStage (setStage m s v) s = some v := by
  unfold setStage
  rw [if_pos h]
  exact lookup_map_set_self v h

theorem lookupStage_setStage_ne {m : List (FeatureStage × ℚ)}
    {s s' : FeatureStage} (v : ℚ) (h : s' ≠ s) :
    lookupStage (setStage m s v) s' = lookupStage m s' := by
  unfold setStage
  split
  · exact lookup_map_set_ne v h
  · rw [lookupStage_append]
    have hone : lookupStage [(s, v)] s' = none := by
      simp [lookupStage, List.find?, Ne.symm h]
    rw [hone]
    rcases lookupStage m s' with _ | w <;> simp [Option.or]

end SprintSim

namespace SprintSim

theorem assign_preserves (f : Feature) (e : Employee) :
    (f.assign e).remaining = f.remaining
    ∧ (f.assign e).current_stage = f.current_stage
    ∧ (f.assign e).development_contributors = f.development_contributors := by
  unfold Feature.assign
  split <;> simp

theorem mkFeature_ok_inv {name : String} {sc : List (FeatureStage × ℚ)}
    {init : FeatureStage} {rc : Option ℚ} {g : Feature}
    (h : mkFeature name sc init rc = .ok g) :
    (rc = none → g.review_coefficient = REVIEW_COEFFICIENT)
    ∧ (∀ c, rc = some c →
        g.review_coefficient = if c = 0 then REVIEW_COEFFICIENT else c)
    ∧ g.stage_capacities = calculate_stage_capacities g.review_coefficient sc
    ∧ g.remaining = g.stage_capacities
    ∧ g.assignees = []
    ∧ g.development_contributors = []
    ∧ g.current_stage = init
    ∧ hasStage g.stage_capacities init = true := by
  simp only [mkFeature] at h
  split at h
  · next hin =>
    injection h with h'
    subst h'
    refine ⟨?_, ?_, rfl, rfl, rfl, rfl, rfl, hin⟩
    · intro hrc; subst hrc; rfl
    · intro c hrc; subst hrc; rfl
  · cases h

theorem calculate_eq_of_hasCR {coeff : ℚ} {sc : List (FeatureStage × ℚ)}
    (h : hasStage sc .CODE_REVIEW = true) :
    calculate_stage_capacities coeff sc = sc := by
  unfold calculate_stage_capacities
  rcases hdev : lookupStage sc .DEVELOPMENT with _ | d
  · rfl
  · simp [h]

theorem calculate_eq_of_noDev {coeff : ℚ} {sc : List (FeatureStage × ℚ)}
    (h : lookupStage sc .DEVELOPMENT = none) :
    calculate_stage_capacities coeff sc = sc := by
  unfold calculate_stage_capacities
  rw [h]

theorem calculate_derives_CR {coeff : ℚ} {sc : List (FeatureStage × ℚ)} {d : ℚ}
    (hd : lookupStage sc .DEVELOPMENT = some d)
    (hnocr : hasStage sc .CODE_REVIEW = false) :
    lookupStage (calculate_stage_capacities coeff sc) .CODE_REVIEW
      = some (round2 (d * coeff)) := by
  unfold calculate_stage_capacities
  rw [hd]
  dsimp only
  rw [if_neg (by simp [hnocr] : ¬ hasStage sc FeatureStage.CODE_REVIEW = true)]
  rw [lookupStage_append, lookupStage_eq_none_iff.mpr hnocr]
  simp [lookupStage, List.find?, Option.or]

end SprintSim

namespace SprintSim

/-- C1: for every feature that is not done and whose current stage is
`CODE_REVIEW`, a worker is eligible (`can_be_worked_by` is true) iff its
role can work `CODE_REVIEW` and its name is not among the feature's
development contributors; `assignees` membership is neither required nor
sufficient, and a registered development contributor stays ineligible even
after being added to the assignees. -/
theorem review_stage_eligibility (f : Feature) (e : Employee)
    (hdone : f.is_done = false) (hstage : f.current_stage = .CODE_REVIEW) :
    (f.can_be_worked_by e = true ↔
      (e.can_work_stage .CODE_REVIEW = true
        ∧ e.name ∉ f.development_contributors))
    ∧ (e.name ∈ f.development_contributors → f.can_be_worked_by e = false)
    ∧ (e.name ∈ f.development_contributors →
        (f.assign e).can_be_worked_by e = false) := by
  obtain ⟨har, hac, hacontrib⟩ := assign_preserves f e
  have hadone : (f.assign e).is_done = f.is_done := by
    unfold Feature.is_done; rw [har]
  refine ⟨?_, ?_, ?_⟩
  · unfold Feature.can_be_worked_by
    rw [hdone, hstage]
    by_cases hc : e.can_work_stage FeatureStage.CODE_REVIEW = true <;>
      simp [hc]
  · intro hmem
    unfold Feature.can_be_worked_by
    rw [hdone, hstage]
    by_cases hc : e.can_work_stage FeatureStage.CODE_REVIEW = true <;>
      simp [hc, hmem]
  · intro hmem
    unfold Feature.can_be_worked_by
    rw [hadone, hdone, hac, hstage, hacontrib]
    by_cases hc : e.can_work_stage FeatureStage.CODE_REVIEW = true <;>
      simp [hc, hmem]

/-- C1 witness: Bob (a Developer who did not contribute to `reviewF`'s
development) is eligible for its Review stage; Alice, the registered
contributor, is not, even though she is assigned. -/
theorem review_stage_eligibility_witness :
    reviewF.is_done = false
    ∧ reviewF.current_stage = .CODE_REVIEW
    ∧ reviewF.can_be_worked_by bob = true
    ∧ reviewF.can_be_worked_by alice = false := by
  refine ⟨by with_unfolding_all decide, rfl, ?_, ?_⟩
  · exact (review_stage_eligibility reviewF bob
      (by with_unfolding_all decide) rfl).1.mpr
      ⟨by with_unfolding_all decide, by with_unfolding_all decide⟩
  · exact (review_stage_eligibility reviewF alice
      (by with_unfolding_all decide) rfl).2.1
      (by with_unfolding_all decide)

end SprintSim

namespace SprintSim

/-- C2: a feature constructed with a `DEVELOPMENT` capacity `d` and no
explicit `CODE_REVIEW` capacity gets a `CODE_REVIEW` stage of effort exactly
`round2 (d * review_coefficient)`; with `DEVELOPMENT` absent the supplied
capacities are kept as they are (no Review stage is inserted, whatever the
coefficient); an explicitly supplied `CODE_REVIEW` capacity is never
overwritten. -/
theorem review_derivation (name : String) (sc : List (FeatureStage × ℚ))
    (init : FeatureStage) (rc : Option ℚ) (g : Feature)
    (hok : mkFeature name sc init rc = .ok g) :
    (∀ d, lookupStage sc .DEVELOPMENT = some d →
      hasStage sc .CODE_REVIEW = false →
      lookupStage g.stage_capacities .CODE_REVIEW
        = some (round2 (d * g.review_coefficient)))
    ∧ (lookupStage sc .DEVELOPMENT = none → g.stage_capacities = sc)
    ∧ (∀ v, lookupStage sc .CODE_REVIEW = some v →
        lookupStage g.stage_capacities .CODE_REVIEW = some v) := by
  obtain ⟨-, -, hcaps, -, -, -, -, -⟩ := mkFeature_ok_inv hok
  refine ⟨?_, ?_, ?_⟩
  · intro d hd hnocr
    rw [hcaps]
    exact calculate_derives_CR hd hnocr
  · intro hnone
    rw [hcaps]
    exact calculate_eq_of_noDev hnone
  · intro v hv
    have hcr : hasStage sc .CODE_REVIEW = true := by
      by_contra hne
      have hno : lookupStage sc .CODE_REVIEW = none :=
        lookupStage_eq_none_iff.mpr (by simpa using hne)
      simp [hno] at hv
    rw [hcaps, calculate_eq_of_hasCR hcr]
    exact hv

/-- C2 witness: the scenario feature derives Review effort
`round2 (10 * (1/5)) = 2`; a capacity map without Development is left
alone; an explicit Review capacity of 7 survives construction. -/
theorem review_derivation_witness :
    lookupStage scenBase.stage_capacities .CODE_REVIEW = some (round2 (10 * (1/5)))
    ∧ testF.stage_capacities = [(.TESTING, 4)] := by
  constructor
  · have hok : mkFeature "Feature" [(.DEVELOPMENT, 10)] .DEVELOPMENT none
        = .ok scenBase := by with_unfolding_all rfl
    have h := (review_derivation "Feature" [(.DEVELOPMENT, 10)] .DEVELOPMENT
      none scenBase hok).1 10 (by with_unfolding_all decide)
      (by with_unfolding_all decide)
    have hco : scenBase.review_coefficient = 1/5 := rfl
    rw [hco] at h
    exact h
  · exact (review_derivation "T" [(.TESTING, 4)] .TESTING none testF
      (by with_unfolding_all rfl)).2.1 (by with_unfolding_all decide)

/-- C10: constructing a feature with an explicit review coefficient of
`0.0` stores the default coefficient `0.2 = 1/5` instead (Python's falsy
`or` merge), the derived Review effort is computed from the default, and
the whole constructor call behaves exactly as if no coefficient had been
supplied. -/
theorem zero_review_coefficient_ignored (name : String)
    (sc : List (FeatureStage × ℚ)) (init : FeatureStage) (d : ℚ) (g : Feature)
    (hd : lookupStage sc .DEVELOPMENT = some d)
    (hnocr : hasStage sc .CODE_REVIEW = false)
    (hok : mkFeature name sc init (some 0) = .ok g) :
    g.review_coefficient = REVIEW_COEFFICIENT
    ∧ REVIEW_COEFFICIENT = 1/5
    ∧ lookupStage g.stage_capacities .CODE_REVIEW
        = some (round2 (d * REVIEW_COEFFICIENT))
    ∧ mkFeature name sc init (some 0) = mkFeature name sc init none := by
  obtain ⟨-, hsome, hcaps, -, -, -, -, -⟩ := mkFeature_ok_inv hok
  have hco : g.review_coefficient = REVIEW_COEFFICIENT := by
    simpa using hsome 0 rfl
  refine ⟨hco, rfl, ?_, ?_⟩
  · rw [hcaps, hco]
    exact calculate_derives_CR hd hnocr
  · unfold mkFeature
    norm_num

/-- C10 witness: with capacities `{DEVELOPMENT: 10}` and an explicit
coefficient `0`, the constructed feature still carries coefficient `1/5`
and Review effort `2`. -/
theorem zero_review_coefficient_ignored_witness :
    zeroF.review_coefficient = REVIEW_COEFFICIENT
    ∧ lookupStage zeroF.stage_capacities .CODE_REVIEW
        = some (round2 (10 * REVIEW_COEFFICIENT)) := by
  have h := zero_review_coefficient_ignored "Z" [(.DEVELOPMENT, 10)]
    .DEVELOPMENT 10 zeroF (by with_unfolding_all decide)
    (by with_unfolding_all decide) (by with_unfolding_all rfl)
  exact ⟨h.1, h.2.2.1⟩

/-- C9: the simple assignment strategy returns the first feature in
list order that the worker may work (`List.find?` over the eligibility
predicate), and `none` exactly when no feature in the list is workable.
In this embedding it is a pure function of the pair (worker, features),
hence deterministic and mutation-free, as the source method only reads. -/
theorem choose_feature_first_match (e : Employee) (fs : List Feature) :
    choose_feature e fs = fs.find? (fun f => f.can_be_worked_by e)
    ∧ (choose_feature e fs = none ↔ ∀ f ∈ fs, f.can_be_worked_by e = false)
    ∧ (∀ f, choose_feature e fs = some f →
        f.can_be_worked_by e = true
        ∧ ∃ l₁ l₂, fs = l₁ ++ f :: l₂
            ∧ ∀ g ∈ l₁, g.can_be_worked_by e = false) := by
  refine ⟨?_, ?_, ?_⟩
  · induction fs with
    | nil => rfl
    | cons f rest ih =>
      by_cases h : f.can_be_worked_by e = true
      · simp [choose_feature, List.find?_cons, h]
      · have hf : f.can_be_worked_by e = false := by simpa using h
        simp [choose_feature, List.find?_cons, hf, ih]
  · induction fs with
    | nil => simp [choose_feature]
    | cons f rest ih =>
      by_cases h : f.can_be_worked_by e = true
      · simp [choose_feature, h]
      · have hf : f.can_be_worked_by e = false := by simpa using h
        simp [choose_feature, hf, ih]
  · induction fs with
    | nil => intro f h; simp [choose_feature] at h
    | cons f0 rest ih =>
      intro f h
      by_cases hc : f0.can_be_worked_by e = true
      · simp only [choose_feature, hc, if_true] at h
        injection h with h'
        subst h'
        exact ⟨hc, [], rest, rfl, by simp⟩
      · have hf : f0.can_be_worked_by e = false := by simpa using hc
        simp only [choose_feature, hf, Bool.false_eq_true, if_false] at h
        obtain ⟨helig, l₁, l₂, heq, hall⟩ := ih f h
        refine ⟨helig, f0 :: l₁, l₂, by rw [heq]; rfl, ?_⟩
        intro g hg
        rcases List.mem_cons.mp hg with hg0 | hgl
        · rw [hg0]; exact hf
        · exact hall g hgl

/-- C9 witness: on the two-feature list `[reviewF, scenF]`, Alice is
matched to `scenF` (she cannot review `reviewF`), and Bob to `reviewF`. -/
theorem choose_feature_first_match_witness :
    choose_feature alice [reviewF, scenF]
        = [reviewF, scenF].find? (fun f => f.can_be_worked_by alice)
    ∧ choose_feature bob [reviewF, scenF] = some reviewF := by
  constructor
  · exact (choose_feature_first_match alice [reviewF, scenF]).1
  · with_unfolding_all decide

end SprintSim

namespace SprintSim

theorem nonnegRemaining_iff {f : Feature} :
    nonnegRemaining f = true ↔ ∀ p ∈ f.remaining, 0 ≤ p.2 := by
  simp [nonnegRemaining, List.all_eq_true]

theorem nonneg_setStage {m : List (FeatureStage × ℚ)} {s : FeatureStage}
    {v : ℚ} (hm : ∀ p ∈ m, 0 ≤ p.2) (hv : 0 ≤ v) :
    ∀ p ∈ setStage m s v, 0 ≤ p.2 := by
  intro p hp
  unfold setStage at hp
  split at hp
  · obtain ⟨q, hq, hqe⟩ := List.mem_map.mp hp
    by_cases h : q.1 = s
    · rw [← hqe]; simp [h]; exact hv
    · rw [← hqe]; simp [h]; exact hm q hq
  · rcases List.mem_append.mp hp with h | h
    · exact hm p h
    · simp at h
      rw [h]
      exact hv

theorem lookupStage_mem {m : List (FeatureStage × ℚ)} {s : FeatureStage}
    {v : ℚ} (h : lookupStage m s = some v) : (s, v) ∈ m := by
  unfold lookupStage at h
  rcases hf : m.find? (fun p => decide (p.1 = s)) with _ | q
  · rw [hf] at h; cases h
  · rw [hf] at h
    simp at h
    have hq := List.find?_some hf
    have hq1 : q.1 = s := by simpa using hq
    have hm := List.mem_of_find?_eq_some hf
    have hqe : q = (s, v) := by
      cases q
      simp_all
    rwa [hqe] at hm

theorem work_remaining (f : Feature) (e : ℚ) :
    (f.work e).remaining = setStage f.remaining f.current_stage
      (max 0 (round2 ((lookupStage f.remaining f.current_stage).getD 0 - e)))
    ∧ (f.work e).current_stage = f.current_stage := ⟨rfl, rfl⟩

theorem try_advance_remaining (f : Feature) :
    f.try_advance.2.remaining = f.remaining := by
  unfold Feature.try_advance
  split
  · rfl
  · dsimp only
    split <;> rfl

theorem register_preserves (f : Feature) (e : Employee) :
    (f.register_development_contributor e).remaining = f.remaining
    ∧ (f.register_development_contributor e).current_stage = f.current_stage :=
  by
  unfold Feature.register_development_contributor
  split
  · exact ⟨rfl, rfl⟩
  · exact ⟨rfl, rfl⟩

theorem calculate_nonneg {coeff : ℚ} {sc : List (FeatureStage × ℚ)}
    (hsc : ∀ p ∈ sc, 0 ≤ p.2) (hco : 0 ≤ coeff) :
    ∀ p ∈ calculate_stage_capacities coeff sc, 0 ≤ p.2 := by
  intro p hp
  unfold calculate_stage_capacities at hp
  rcases hdev : lookupStage sc .DEVELOPMENT with _ | d
  · rw [hdev] at hp
    exact hsc p hp
  · rw [hdev] at hp
    dsimp only at hp
    split at hp
    · exact hsc p hp
    · rcases List.mem_append.mp hp with h | h
      · exact hsc p h
      · have hd0 : (0:ℚ) ≤ d := hsc _ (lookupStage_mem hdev)
        simp at h
        rw [h]
        exact round2_nonneg (mul_nonneg hd0 hco)

/-- C4: `work e` replaces the current stage's remaining effort by
`max 0 (round2 (previous - e))`, so any effort at least the remaining one
drives it to exactly `0`, never below; and every operation of the feature
lifecycle (construction from nonnegative capacities and a nonnegative
coefficient, `work`, `try_advance`, `assign`,
`register_development_contributor`) keeps every stage's remaining effort
nonnegative. -/
theorem applyWork_clamps (f : Feature) (e : ℚ) (he : 0 ≤ e)
    (hwf : hasStage f.remaining f.current_stage = true) :
    lookupStage (f.work e).remaining f.current_stage
      = some (max 0 (round2 ((lookupStage f.remaining f.current_stage).getD 0 - e)))
    ∧ ((lookupStage f.remaining f.current_stage).getD 0 ≤ e →
        lookupStage (f.work e).remaining f.current_stage = some 0)
    ∧ (∀ g : Feature, ∀ c : ℚ, nonnegRemaining g = true →
        nonnegRemaining (g.work c) = true)
    ∧ (∀ g : Feature, nonnegRemaining g = true →
        nonnegRemaining g.try_advance.2 = true)
    ∧ (∀ g : Feature, ∀ w : Employee, nonnegRemaining g = true →
        nonnegRemaining (g.assign w) = true
        ∧ nonnegRemaining (g.register_development_contributor w) = true)
    ∧ (∀ (nm : String) (sc : List (FeatureStage × ℚ)) (init : FeatureStage)
          (rc : Option ℚ) (g : Feature),
        mkFeature nm sc init rc = .ok g →
        (∀ p ∈ sc, 0 ≤ p.2) → (∀ c, rc = some c → 0 ≤ c) →
        nonnegRemaining g = true) := by
  have hmain : lookupStage (f.work e).remaining f.current_stage
      = some (max 0 (round2 ((lookupStage f.remaining f.current_stage).getD 0 - e))) := by
    rw [(work_remaining f e).1]
    exact lookupStage_setStage_self _ hwf
  refine ⟨hmain, ?_, ?_, ?_, ?_, ?_⟩
  · intro hle
    rw [hmain, max_round2_eq_zero (by linarith)]
  · intro g c hg
    rw [nonnegRemaining_iff] at hg ⊢
    rw [(work_remaining g c).1]
    exact nonneg_setStage hg (le_max_left _ _)
  · intro g hg
    rw [nonnegRemaining_iff] at hg ⊢
    rw [try_advance_remaining g]
    exact hg
  · intro g w hg
    rw [nonnegRemaining_iff] at hg
    constructor
    · rw [nonnegRemaining_iff, (assign_preserves g w).1]
      exact hg
    · rw [nonnegRemaining_iff, (register_preserves g w).1]
      exact hg
  · intro nm sc init rc g hok hsc hrc
    obtain ⟨hnone, hsome, hcaps, hrem, -, -, -, -⟩ := mkFeature_ok_inv hok
    have hco : 0 ≤ g.review_coefficient := by
      rcases rc with _ | c
      · rw [hnone rfl]; norm_num [REVIEW_COEFFICIENT]
      · rw [hsome c rfl]
        split
        · norm_num [REVIEW_COEFFICIENT]
        · exact hrc c rfl
    rw [nonnegRemaining_iff, hrem, hcaps]
    exact calculate_nonneg hsc hco

/-- C4 witness: applying 3 effort units to `reviewF` (Review remaining
2) leaves Review remaining exactly 0, and all remaining efforts of the
worked feature are nonnegative. -/
theorem applyWork_clamps_witness :
    lookupStage (reviewF.work 3).remaining reviewF.current_stage = some 0
    ∧ nonnegRemaining (reviewF.work 3) = true := by
  have h := applyWork_clamps reviewF 3 (by norm_num)
    (by with_unfolding_all decide)
  constructor
  · exact h.2.1 (by with_unfolding_all decide)
  · exact h.2.2.1 reviewF 3 (by with_unfolding_all decide)

end SprintSim

namespace SprintSim

theorem findIdx_stage : ∀ c : FeatureStage,
    STAGE_ORDER.findIdx (fun t => decide (t = c)) = stageIdx c := by decide

theorem mem_drop_stage : ∀ c s : FeatureStage,
    s ∈ STAGE_ORDER.drop (stageIdx c + 1) → stageIdx c < stageIdx s := by decide

theorem stageIdx_le_step (f : Feature) :
    stageIdx f.current_stage ≤ stageIdx f.try_advance.2.current_stage := by
  unfold Feature.try_advance
  split
  · exact le_refl _
  · dsimp only
    rw [findIdx_stage]
    rcases hfind : (STAGE_ORDER.drop (stageIdx f.current_stage + 1)).find?
        (fun s => hasStage f.remaining s) with _ | s
    · exact le_refl _
    · exact le_of_lt (mem_drop_stage _ _ (List.mem_of_find?_eq_some hfind))

theorem advance_iter_mono (f : Feature) : ∀ m n : ℕ, m ≤ n →
    stageIdx (advance_iter f m).current_stage
      ≤ stageIdx (advance_iter f n).current_stage := by
  intro m n hmn
  induction n with
  | zero =>
    have hm : m = 0 := Nat.le_zero.mp hmn
    rw [hm]
  | succ n ih =>
    rcases Nat.lt_or_ge m (n + 1) with h | h
    · exact le_trans (ih (Nat.lt_succ_iff.mp h))
        (stageIdx_le_step (advance_iter f n))
    · rw [le_antisymm hmn h]

/-- C5: `try_advance` is a no-op returning `false` while the current
stage has remaining effort; otherwise it either moves `current_stage` to
the first later stage (in the fixed `STAGE_ORDER`) present in `remaining`
and returns `false`, or returns `true` (feature fully complete) when no
later stage exists, leaving the feature itself unchanged — the caller does
the removing. The index of `current_stage` in the fixed order never
decreases over any sequence of `try_advance` calls. -/
theorem try_advance_spec (f : Feature) :
    (0 < (lookupStage f.remaining f.current_stage).getD 0 →
      f.try_advance = (false, f))
    ∧ ((lookupStage f.remaining f.current_stage).getD 0 ≤ 0 →
      (f.try_advance.1 = true ∧ f.try_advance.2 = f
        ∧ ∀ s, stageIdx f.current_stage < stageIdx s →
            hasStage f.remaining s = false)
      ∨ (f.try_advance.1 = false
        ∧ hasStage f.remaining f.try_advance.2.current_stage = true
        ∧ stageIdx f.current_stage < stageIdx f.try_advance.2.current_stage
        ∧ ∀ s, stageIdx f.current_stage < stageIdx s →
            stageIdx s < stageIdx f.try_advance.2.current_stage →
            hasStage f.remaining s = false))
    ∧ (∀ m n : ℕ, m ≤ n →
        stageIdx (advance_iter f m).current_stage
          ≤ stageIdx (advance_iter f n).current_stage) := by
  refine ⟨?_, ?_, advance_iter_mono f⟩
  · intro hpos
    unfold Feature.try_advance
    rw [if_pos hpos]
  · intro hz
    have hnot : ¬ 0 < (lookupStage f.remaining f.current_stage).getD 0 :=
      not_lt.mpr hz
    unfold Feature.try_advance
    rw [if_neg hnot]
    dsimp only
    rw [findIdx_stage]
    cases hc : f.current_stage
    case ANALYTICS =>
      cases h1 : hasStage f.remaining FeatureStage.DEVELOPMENT
      · cases h2 : hasStage f.remaining FeatureStage.CODE_REVIEW
        · cases h3 : hasStage f.remaining FeatureStage.TESTING
          · left
            simp [stageIdx, STAGE_ORDER, List.find?_cons, h1, h2, h3]
            intro s hs
            cases s <;> simp_all [stageIdx]
          · right
            simp [stageIdx, STAGE_ORDER, List.find?_cons, h1, h2, h3]
            intro s hs hs'
            cases s <;> simp_all [stageIdx]
        · right
          simp [stageIdx, STAGE_ORDER, List.find?_cons, h1, h2]
          intro s hs hs'
          cases s <;> simp_all [stageIdx]
      · right
        simp [stageIdx, STAGE_ORDER, List.find?_cons, h1]
        intro s hs hs'
        cases s <;> simp_all [stageIdx]
    case DEVELOPMENT =>
      cases h2 : hasStage f.remaining FeatureStage.CODE_REVIEW
      · cases h3 : hasStage f.remaining FeatureStage.TESTING
        · left
          simp [stageIdx, STAGE_ORDER, List.find?_cons, h2, h3]
          intro s hs
          cases s <;> simp_all [stageIdx]
        · right
          simp [stageIdx, STAGE_ORDER, List.find?_cons, h2, h3]
          intro s hs hs'
          cases s <;> simp_all [stageIdx]
      · right
        simp [stageIdx, STAGE_ORDER, List.find?_cons, h2]
        intro s hs hs'
        cases s <;> simp_all [stageIdx]
    case CODE_REVIEW =>
      cases h3 : hasStage f.remaining FeatureStage.TESTING
      · left
        simp [stageIdx, STAGE_ORDER, List.find?_cons, h3]
        intro s hs
        cases s <;> simp_all [stageIdx]
      · right
        simp [stageIdx, STAGE_ORDER, List.find?_cons, h3]
        intro s hs hs'
        cases s <;> simp_all [stageIdx]
    case TESTING =>
      left
      simp [stageIdx, STAGE_ORDER, List.find?_cons]
      intro s hs
      cases s <;> simp_all [stageIdx]

/-- C5 witness: the scenario feature (Development remaining 10) does
not advance; once worked down to zero it advances to Review; and the stage
index after two advancement steps is at least the one after none. -/
theorem try_advance_spec_witness :
    scenF.try_advance = (false, scenF)
    ∧ stageIdx (advance_iter reviewF 0).current_stage
        ≤ stageIdx (advance_iter reviewF 2).current_stage := by
  constructor
  · exact (try_advance_spec scenF).1 (by with_unfolding_all decide)
  · exact (try_advance_spec reviewF).2.2 0 2 (by norm_num)

end SprintSim

namespace SprintSim

theorem validate_unfold (fs : List Feature) (es : List Employee) :
    validate fs es =
      (validate_features fs).bind (fun _ =>
        (validate_employees es).bind (fun _ =>
          (validate_code_review_coverage (es.filter is_developer) fs).bind
            (fun _ => .ok true))) := rfl

theorem validate_error_of_features {fs : List Feature} {es : List Employee}
    {err : ValidationError} (h : validate_features fs = .error err) :
    validate fs es = .error err := by
  rw [validate_unfold, h]
  rfl

theorem validate_error_of_employees {fs : List Feature} {es : List Employee}
    {err : ValidationError} (h1 : validate_features fs = .ok ())
    (h2 : validate_employees es = .error err) :
    validate fs es = .error err := by
  rw [validate_unfold, h1, h2]
  rfl

theorem validate_error_of_coverage {fs : List Feature} {es : List Employee}
    {err : ValidationError} (h1 : validate_features fs = .ok ())
    (h2 : validate_employees es = .ok ())
    (h3 : validate_code_review_coverage (es.filter is_developer) fs
      = .error err) :
    validate fs es = .error err := by
  rw [validate_unfold, h1, h2, h3]
  rfl

theorem find?_of_exists {α : Type} (p : α → Bool) :
    ∀ {l : List α}, (∃ x ∈ l, p x = true) →
      ∃ x ∈ l, p x = true ∧ l.find? p = some x := by
  intro l
  induction l with
  | nil =>
    rintro ⟨x, hx, -⟩
    cases hx
  | cons a rest ih =>
    rintro ⟨x, hx, hpx⟩
    by_cases ha : p a = true
    · exact ⟨a, by simp, ha, by simp [List.find?_cons, ha]⟩
    · have haf : p a = false := by simpa using ha
      rcases List.mem_cons.mp hx with he | hm
      · subst he
        exact absurd hpx ha
      · obtain ⟨y, hy, hpy, hfind⟩ := ih ⟨x, hm, hpx⟩
        exact ⟨y, List.mem_cons_of_mem a hy, hpy,
          by simp [List.find?_cons, haf, hfind]⟩

theorem coverage_ok_of_all (devs : List Employee) :
    ∀ fs : List Feature,
    (∀ f ∈ fs, f.has_code_review = true →
      (devs.filter (fun d => ¬ (d.name ∈ assigned_dev_names f))).isEmpty
        = false) →
    validate_code_review_coverage devs fs = .ok () := by
  intro fs
  induction fs with
  | nil => intro h; rfl
  | cons f rest ih =>
    intro h
    by_cases hcr : f.has_code_review = true
    · have hne := h f (List.mem_cons_self f rest) hcr
      simp only [validate_code_review_coverage, hcr, if_true, hne,
        Bool.false_eq_true, if_false]
      exact ih (fun g hg hcg => h g (List.mem_cons_of_mem f hg) hcg)
    · have hcf : f.has_code_review = false := by simpa using hcr
      simp only [validate_code_review_coverage, hcf, Bool.false_eq_true,
        if_false]
      exact ih (fun g hg hcg => h g (List.mem_cons_of_mem f hg) hcg)

theorem coverage_error_of_exists (devs : List Employee) :
    ∀ fs : List Feature,
    (∃ f ∈ fs, f.has_code_review = true ∧
      (devs.filter (fun d => ¬ (d.name ∈ assigned_dev_names f))).isEmpty
        = true) →
    ∃ g ∈ fs, g.has_code_review = true ∧
      validate_code_review_coverage devs fs
        = .error (.noReviewer g.name (assigned_dev_names g)
            (devs.map Employee.name)) := by
  intro fs
  induction fs with
  | nil =>
    rintro ⟨f, hf, -⟩
    cases hf
  | cons f rest ih =>
    rintro ⟨f0, hf0, hcr0, hemp0⟩
    by_cases hcr : f.has_code_review = true
    · by_cases hemp : (devs.filter
          (fun d => ¬ (d.name ∈ assigned_dev_names f))).isEmpty = true
      · refine ⟨f, by simp, hcr, ?_⟩
        simp only [validate_code_review_coverage, hcr, if_true, hemp]
      · have hempf : (devs.filter
            (fun d => ¬ (d.name ∈ assigned_dev_names f))).isEmpty = false := by
          simpa using hemp
        rcases List.mem_cons.mp hf0 with he | hm
        · exfalso
          subst he
          exact hemp hemp0
        · obtain ⟨g, hg, hgcr, hgeq⟩ := ih ⟨f0, hm, hcr0, hemp0⟩
          refine ⟨g, List.mem_cons_of_mem f hg, hgcr, ?_⟩
          simp only [validate_code_review_coverage, hcr, if_true, hempf,
            Bool.false_eq_true, if_false]
          exact hgeq
    · have hcf : f.has_code_review = false := by simpa using hcr
      rcases List.mem_cons.mp hf0 with he | hm
      · exfalso
        subst he
        exact hcr hcr0
      · obtain ⟨g, hg, hgcr, hgeq⟩ := ih ⟨f0, hm, hcr0, hemp0⟩
        refine ⟨g, List.mem_cons_of_mem f hg, hgcr, ?_⟩
        simp only [validate_code_review_coverage, hcf, Bool.false_eq_true,
          if_false]
        exact hgeq

end SprintSim

namespace SprintSim

/-- C3: in an otherwise valid configuration where some feature has a
Review stage of positive effort and every Developer of the team is among
that feature's assigned developers, `validate` fails with a `noReviewer`
error carrying a failing feature's name, its assigned Developer names and
the names of all the team's Developers; and after adding one more
Developer whose identity is assigned to no feature, the review-coverage
check passes. -/
theorem no_reviewer_coverage (fs : List Feature) (es : List Employee)
    (f : Feature) (hmem : f ∈ fs) (hcr : f.has_code_review = true)
    (hall : ∀ d ∈ es, is_developer d = true → d.name ∈ assigned_dev_names f)
    (hfeat : validate_features fs = .ok ())
    (hemp : validate_employees es = .ok ())
    (extra : Employee) (hdev : is_developer extra = true)
    (hfresh : ∀ g ∈ fs, ¬ (extra.name ∈ assigned_dev_names g)) :
    (∃ g ∈ fs, validate fs es
        = .error (.noReviewer g.name (assigned_dev_names g)
            ((es.filter is_developer).map Employee.name)))
    ∧ validate_code_review_coverage ((es ++ [extra]).filter is_developer) fs
        = .ok () := by
  constructor
  · have hex : ∃ f0 ∈ fs, f0.has_code_review = true ∧
        ((es.filter is_developer).filter
          (fun d => ¬ (d.name ∈ assigned_dev_names f0))).isEmpty = true := by
      refine ⟨f, hmem, hcr, ?_⟩
      have hnil : (es.filter is_developer).filter
          (fun d => ¬ (d.name ∈ assigned_dev_names f)) = [] := by
        rw [List.filter_eq_nil_iff]
        intro d hd
        have hd1 := List.mem_filter.mp hd
        have hin := hall d hd1.1 hd1.2
        simp [hin]
      rw [hnil]
      rfl
    obtain ⟨g, hg, -, hgeq⟩ := coverage_error_of_exists _ _ hex
    exact ⟨g, hg, validate_error_of_coverage hfeat hemp hgeq⟩
  · apply coverage_ok_of_all
    intro g hg hgcr
    have hextra_mem : extra ∈ (es ++ [extra]).filter is_developer := by
      rw [List.mem_filter]
      exact ⟨by simp, hdev⟩
    have hmem2 : extra ∈ ((es ++ [extra]).filter is_developer).filter
        (fun d => ¬ (d.name ∈ assigned_dev_names g)) := by
      rw [List.mem_filter]
      exact ⟨hextra_mem, by simpa using hfresh g hg⟩
    rcases hl : ((es ++ [extra]).filter is_developer).filter
        (fun d => ¬ (d.name ∈ assigned_dev_names g)) with _ | ⟨x, xs⟩
    · rw [hl] at hmem2
      cases hmem2
    · rw [hl]
      rfl

/-- C3 witness: with the single scenario feature (Review effort 2)
and Alice, its only assigned Developer, as the whole team, validation
fails with the `noReviewer` error naming the feature, `["Alice"]` and
`["Alice"]`; adding the unassigned Developer Bob makes the coverage check
pass. -/
theorem no_reviewer_coverage_witness :
    validate [scenF] [alice]
      = .error (.noReviewer "Feature" ["Alice"] ["Alice"])
    ∧ validate_code_review_coverage
        (([alice] ++ [bob]).filter is_developer) [scenF] = .ok () := by
  have h := no_reviewer_coverage [scenF] [alice] scenF
    (by simp) (by with_unfolding_all decide)
    (by intro d hd hdev
        have : d = alice := by simpa using hd
        subst this
        with_unfolding_all decide)
    (by with_unfolding_all decide) (by with_unfolding_all decide)
    bob (by with_unfolding_all decide)
    (by intro g hg
        have : g = scenF := by simpa using hg
        subst this
        with_unfolding_all decide)
  refine ⟨?_, h.2⟩
  obtain ⟨g, hg, hge⟩ := h.1
  have hgs : g = scenF := by simpa using hg
  subst hgs
  have h1 : scenF.name = "Feature" := rfl
  have h2 : assigned_dev_names scenF = ["Alice"] := by with_unfolding_all rfl
  have h3 : ([alice].filter is_developer).map Employee.name = ["Alice"] := by
    with_unfolding_all rfl
  rw [h1, h2, h3] at hge
  exact hge

theorem validate_features_ok {fs : List Feature} (hne : fs ≠ [])
    (hall : ∀ f ∈ fs, f.assignees ≠ []) :
    validate_features fs = .ok () := by
  unfold validate_features
  rw [if_neg (by simpa using hne)]
  have hfind : fs.find? (fun f => f.assignees.isEmpty) = none := by
    rw [List.find?_eq_none]
    intro f hf
    simpa using hall f hf
  rw [hfind]

/-- C7 counterexample: with a non-empty feature list containing a
feature without assignees and an empty worker list, `validate` raises the
missing-assignee error of `_validate_features`, not the empty-workers
error that the claimed check order (features, workers, assignees,
productivity) would produce. -/
theorem validate_order_counterexample :
    validate [orphanF] []
      = .error (.planning "Feature has no assigned employees" (some "Orphan"))
    ∧ validate [orphanF] []
      ≠ .error (.planning "No employees provided for simulation" none) := by
  constructor
  · with_unfolding_all decide
  · with_unfolding_all decide

/-- C7, amended: `validate` performs its checks in the order
(1) features list non-empty, (2) every feature has at least one assignee,
(3) workers list non-empty, (4) every worker has strictly positive
productivity, raising immediately on the first failing check; hence when
the features list is non-empty, some feature lacks assignees and the
workers list is empty, the raised error is the missing-assignee error,
not the empty-workers error. -/
theorem validate_fail_fast (fs : List Feature) (es : List Employee) :
    (fs = [] →
      validate fs es
        = .error (.planning "No features provided for simulation" none))
    ∧ (fs ≠ [] → (∃ f ∈ fs, f.assignees = []) →
        ∃ f ∈ fs, f.assignees = []
          ∧ validate fs es = .error
              (.planning "Feature has no assigned employees" (some f.name)))
    ∧ ((∀ f ∈ fs, f.assignees ≠ []) → fs ≠ [] → es = [] →
        validate fs es
          = .error (.planning "No employees provided for simulation" none))
    ∧ ((∀ f ∈ fs, f.assignees ≠ []) → fs ≠ [] → es ≠ [] →
        (∃ e ∈ es, e.productivity_per_day ≤ 0) →
        ∃ e ∈ es, e.productivity_per_day ≤ 0
          ∧ validate fs es = .error (.planning
              ("Employee " ++ e.name ++ " has invalid productivity") none)) := by
  refine ⟨?_, ?_, ?_, ?_⟩
  · intro hnil
    subst hnil
    rfl
  · intro hne hex
    have hex2 : ∃ f ∈ fs, (fun f : Feature => f.assignees.isEmpty) f = true := by
      obtain ⟨f, hf, hfe⟩ := hex
      exact ⟨f, hf, by simp [hfe]⟩
    obtain ⟨f, hf, hpf, hfind⟩ := find?_of_exists _ hex2
    refine ⟨f, hf, by simpa using hpf, ?_⟩
    apply validate_error_of_features
    unfold validate_features
    rw [if_neg (by simpa using hne), hfind]
  · intro hall hne hes
    subst hes
    apply validate_error_of_employees (validate_features_ok hne hall)
    rfl
  · intro hall hne hes hex
    have hex2 : ∃ e ∈ es,
        (fun e : Employee => decide (e.productivity_per_day ≤ 0)) e = true := by
      obtain ⟨e, he, hpe⟩ := hex
      exact ⟨e, he, by simpa using hpe⟩
    obtain ⟨e, he, hpe, hfind⟩ := find?_of_exists _ hex2
    refine ⟨e, he, by simpa using hpe, ?_⟩
    apply validate_error_of_employees (validate_features_ok hne hall)
    unfold validate_employees
    rw [if_neg (by simpa using hes), hfind]

/-- C7 amended witness: on the concrete configuration of the
counterexample, check 2 fires: the missing-assignee error for `Orphan`. -/
theorem validate_fail_fast_witness :
    ∃ f ∈ [orphanF], f.assignees = []
      ∧ validate [orphanF] [] = .error
          (.planning "Feature has no assigned employees" (some f.name)) :=
  (validate_fail_fast [orphanF] []).2.1 (by simp)
    ⟨orphanF, by simp, rfl⟩

end SprintSim

namespace SprintSim

theorem process_tick_history (emp : List Employee) (st : SimState) :
    (process_tick emp st).history.length = st.history.length + 1 := by
  unfold process_tick
  simp

theorem run_ticks_history_le (emp : List Employee) :
    ∀ (n : ℕ) (st : SimState),
      (run_ticks emp n st).history.length ≤ st.history.length + n := by
  intro n
  induction n with
  | zero =>
    intro st
    simp [run_ticks]
  | succ n ih =>
    intro st
    unfold run_ticks
    dsimp only
    split
    · rw [process_tick_history]
      omega
    · calc (run_ticks emp n (process_tick emp st)).history.length
          ≤ (process_tick emp st).history.length + n := ih _
        _ = st.history.length + (n + 1) := by rw [process_tick_history]; omega

theorem run_ticks_stops_when_empty (emp : List Employee) {n : ℕ}
    (hn : 0 < n) (st : SimState)
    (h : (process_tick emp st).features = []) :
    run_ticks emp n st = process_tick emp st := by
  cases n with
  | zero => omega
  | succ n =>
    unfold run_ticks
    dsimp only
    rw [if_pos (by simp [h])]

theorem run_ticks_exact (emp : List Employee) :
    ∀ (n : ℕ) (st : SimState),
      (run_ticks emp n st).history.length = st.history.length + n →
      ∀ k, 1 ≤ k → k < n → (tick_iter emp k st).features ≠ [] := by
  intro n
  induction n with
  | zero =>
    intro st h k h1 h2
    omega
  | succ n ih =>
    intro st h k h1 h2
    unfold run_ticks at h
    dsimp only at h
    by_cases hemp : (process_tick emp st).features.isEmpty = true
    · rw [if_pos hemp, process_tick_history] at h
      omega
    · rw [if_neg hemp] at h
      have h' : (run_ticks emp n (process_tick emp st)).history.length
          = (process_tick emp st).history.length + n := by
        rw [process_tick_history]
        omega
      cases k with
      | zero => omega
      | succ j =>
        have hstep : tick_iter emp (j + 1) st
            = tick_iter emp j (process_tick emp st) := rfl
        rw [hstep]
        rcases Nat.eq_zero_or_pos j with hz | hpos
        · subst hz
          intro hc
          apply hemp
          have : (process_tick emp st).features = [] := hc
          simp [this]
        · exact ih _ h' j hpos (by omega)

/-- C8: `run(max_days)` records at most `max_days * HOURS_PER_DAY`
tick snapshots; it records exactly that many only if the active feature
set is never empty strictly before the bound; and whenever the feature
set is empty at the end of a processed tick, no further tick is processed
or recorded. -/
theorem run_termination (emp : List Employee) (fs : List Feature)
    (max_days : ℕ) (hmd : 1 ≤ max_days) :
    (run emp fs max_days).history.length ≤ max_days * HOURS_PER_DAY
    ∧ ((run emp fs max_days).history.length = max_days * HOURS_PER_DAY →
        ∀ k, 1 ≤ k → k < max_days * HOURS_PER_DAY →
          (tick_iter emp k { features := fs, history := [] }).features ≠ [])
    ∧ (∀ (st : SimState) (n : ℕ), 0 < n →
        (process_tick emp st).features = [] →
        run_ticks emp n st = process_tick emp st) := by
  refine ⟨?_, ?_, ?_⟩
  · have h := run_ticks_history_le emp (max_days * HOURS_PER_DAY)
      { features := fs, history := [] }
    simpa [run] using h
  · intro hlen
    apply run_ticks_exact emp (max_days * HOURS_PER_DAY)
      { features := fs, history := [] }
    simpa [run] using hlen
  · intro st n hn hemp
    exact run_ticks_stops_when_empty emp hn st hemp

/-- C8 witness: a one-day run of the example scenario records at most
8 snapshots (in fact 8: the feature is still in progress). -/
theorem run_termination_witness :
    (run scenTeam [scenF] 1).history.length ≤ 1 * HOURS_PER_DAY :=
  (run_termination scenTeam [scenF] 1 (by norm_num)).1

set_option maxRecDepth 8000 in
/-- C6: in the specification's example scenario (one feature with
Development capacity 10, default coefficient, Alice assigned, Bob an
unassigned Developer, both at productivity 8 per day), the Review stage is
auto-added at effort 2; after 10 ticks Development is at 0 and the stage
has advanced to Review; Bob (not a contributor) is then eligible while
Alice is not; Review takes 2 more ticks; the feature completes at tick 12,
so a 5-day run records 12 ticks, well under the 40-tick bound. -/
theorem example_scenario :
    mkFeature "Feature" [(.DEVELOPMENT, 10)] .DEVELOPMENT none = .ok scenBase
    ∧ lookupStage scenBase.stage_capacities .CODE_REVIEW = some 2
    ∧ (tick_iter scenTeam 9 scenInit).features.map Feature.current_stage
        = [.DEVELOPMENT]
    ∧ (tick_iter scenTeam 10 scenInit).features.map Feature.current_stage
        = [.CODE_REVIEW]
    ∧ (tick_iter scenTeam 10 scenInit).features.map
        (fun f => lookupStage f.remaining .DEVELOPMENT) = [some 0]
    ∧ (tick_iter scenTeam 10 scenInit).features.all
        (fun f => f.can_be_worked_by bob && !(f.can_be_worked_by alice)
          && !(decide ("Bob" ∈ f.development_contributors))) = true
    ∧ (tick_iter scenTeam 11 scenInit).features.map
        (fun f => lookupStage f.remaining .CODE_REVIEW) = [some 1]
    ∧ (tick_iter scenTeam 12 scenInit).features = []
    ∧ (run scenTeam [scenF] 5).history.length = 12
    ∧ 12 < 5 * HOURS_PER_DAY := by
  refine ⟨?_, ?_, ?_, ?_, ?_, ?_, ?_, ?_, ?_, ?_⟩ <;> with_unfolding_all decide

end SprintSim
